import Mathlib

/-!
Verification of the box-utility core of an SSD-style object detector
(`layers/box_utils.py` and the evaluation routine of `train.py`).

The Python tensor code is shallowly embedded over an arbitrary linear
ordered field `α`.  Rows of a tensor of boxes become a `List (Box α)`;
pairwise matrix computations become `List.map` over rows.  The purely
order/index-theoretic parts of the matcher and of non-maximum suppression
are stated over `ℚ` (so that concrete runs evaluate by `decide`), while
`encode`/`decode`, which use the transcendental `log`/`exp`, are stated
over `ℝ`.

Field division in Lean is total with `x / 0 = 0`; IEEE floating division
instead produces `NaN`/`Inf` on a zero denominator.  Where a claim is
about that distinction, the division of the source is additionally
modelled by `divChecked`, which returns `none` exactly when the
denominator is zero (the cases where PyTorch would produce a non-finite
value).
-/

namespace SSD

/-- One row of an `[N,4]` tensor of boxes.  `x0,x1,x2,x3` are the four
columns; for corner-form boxes they read `(xmin, ymin, xmax, ymax)`,
for center-form boxes `(cx, cy, w, h)`. -/
structure Box (α : Type) where
  x0 : α
  x1 : α
  x2 : α
  x3 : α
deriving DecidableEq, Repr

variable {α : Type} [LinearOrderedField α]

/-- `point_form` of `box_utils.py`: convert a center-form box `(cx,cy,w,h)`
to corner form `(cx - w/2, cy - h/2, cx + w/2, cy + h/2)`. -/
def point_form (b : Box α) : Box α :=
  ⟨b.x0 - b.x2 / 2, b.x1 - b.x3 / 2, b.x0 + b.x2 / 2, b.x1 + b.x3 / 2⟩

/-- `center_size` of `box_utils.py`: convert a corner-form box back to
center form `((xmin+xmax)/2, (ymin+ymax)/2, xmax-xmin, ymax-ymin)`. -/
def center_size (b : Box α) : Box α :=
  ⟨(b.x2 + b.x0) / 2, (b.x3 + b.x1) / 2, b.x2 - b.x0, b.x3 - b.x1⟩

/-- One entry of the `intersect` matrix of `box_utils.py`: clamped
intersection width times clamped intersection height. -/
def intersect (a b : Box α) : α :=
  (max 0 (min a.x2 b.x2 - max a.x0 b.x0)) * (max 0 (min a.x3 b.x3 - max a.x1 b.x1))

/-- Area `(x2 - x0) * (x3 - x1)` of a corner-form box, as computed inline
in `jaccard` and by `get_box_size`. -/
def area (b : Box α) : α := (b.x2 - b.x0) * (b.x3 - b.x1)

/-- `get_box_size` of `box_utils.py`: the vector of areas of a box list. -/
def get_box_size (boxes : List (Box α)) : List α := boxes.map area

/-- One entry of the `jaccard` matrix of `box_utils.py`:
`inter / (area_a + area_b - inter)`.  Lean's total field division makes
this `0` when the union is zero; see `jaccardChecked` for the model of
the IEEE behaviour of that division. -/
def jaccard (a b : Box α) : α :=
  intersect a b / (area a + area b - intersect a b)

/-- The full `[A,B]` matrix `jaccard(box_a, box_b)`. -/
def jaccardMat (A B : List (Box α)) : List (List α) :=
  A.map fun a => B.map fun b => jaccard a b

/-- The full `[A,B]` matrix `intersect(box_a, box_b)`. -/
def intersectMat (A B : List (Box α)) : List (List α) :=
  A.map fun a => B.map fun b => intersect a b

/-- IEEE-aware division: `none` when the denominator is zero, which is
exactly when PyTorch float division returns `NaN` (for `0/0`) or
`±Inf` (for `x/0`, `x ≠ 0`). -/
def divChecked (x y : α) : Option α :=
  if y = 0 then none else some (x / y)

/-- The `jaccard` entry with its division modelled IEEE-style: `none`
when the union `area_a + area_b - inter` is zero. -/
def jaccardChecked (a b : Box α) : Option α :=
  divChecked (intersect a b) (area a + area b - intersect a b)

/-- Maximum of a list together with the index of its first maximal
element, as `torch.max(..., dim)` returns for a row/column.  The empty
list (which would raise in PyTorch) returns the junk value `(0, 0)`. -/
def maxWithIdx : List α → α × ℕ
  | [] => (0, 0)
  | [a] => (a, 0)
  | a :: b :: rest =>
    let mi := maxWithIdx (b :: rest)
    if mi.1 ≤ a then (a, 0) else (mi.1, mi.2 + 1)

/-- Column `p` of a matrix stored as a list of rows. -/
def col (m : List (List α)) (p : ℕ) : List α := m.map fun r => r.getD p 0

/-- `overlaps = jaccard(truths, point_form(priors))` of `match`. -/
def overlapsOf (truths priors : List (Box α)) : List (List α) :=
  jaccardMat truths (priors.map point_form)

/-- `best_prior_idx` of `match`: for each ground truth (row), the index
of its best-overlapping prior (`overlaps.max(1)`), after the squeeze. -/
def bestPriorIdx (truths priors : List (Box α)) : List ℕ :=
  (overlapsOf truths priors).map fun row => (maxWithIdx row).2

/-- `best_truth_idx` of `match` as produced by `overlaps.max(0)`: for
each prior (column), the index of its best-overlapping ground truth,
before any override. -/
def bestTruthIdxPre (truths priors : List (Box α)) : List ℕ :=
  (List.range priors.length).map fun p =>
    (maxWithIdx (col (overlapsOf truths priors) p)).2

/-- `best_truth_overlap` of `match`: for each prior, the overlap with its
best ground truth (`overlaps.max(0)`).  The source never recomputes this
after the forced-coverage override. -/
def bestTruthOverlap (truths priors : List (Box α)) : List α :=
  (List.range priors.length).map fun p =>
    (maxWithIdx (col (overlapsOf truths priors) p)).1

/-- Sequential indexed writes `b[ps[j]] := j0 + j` for `j = 0,1,...` in
order, the embedding of the loop
`for j in range(best_prior_idx.size(0)): best_truth_idx[best_prior_idx[j]] = j`
of `match`.  The vectorized line
`best_truth_idx[best_prior_idx] = torch.arange(...)` performs the same
writes (index order, last write wins), so it is modelled by the same
function. -/
def overrideLoop (b : List ℕ) : List ℕ → ℕ → List ℕ
  | [], _ => b
  | p :: rest, j => overrideLoop (b.set p j) rest (j + 1)

/-- `best_truth_idx` after both the vectorized pre-assignment and the
sequential forced-coverage loop of `match`. -/
def matchBTI (truths priors : List (Box α)) : List ℕ :=
  overrideLoop
    (overrideLoop (bestTruthIdxPre truths priors) (bestPriorIdx truths priors) 0)
    (bestPriorIdx truths priors) 0

/-- `best_truth_idx` as the sequential loop alone would produce it, with
the vectorized pre-assignment removed (the comparison object of the
redundancy claim about `match`). -/
def matchBTIloopOnly (truths priors : List (Box α)) : List ℕ :=
  overrideLoop (bestTruthIdxPre truths priors) (bestPriorIdx truths priors) 0

/-- `conf` of `match`: `labels[best_truth_idx] + 1`, then
`conf[best_truth_overlap < threshold] = 0`.  The masking uses the
pre-override `best_truth_overlap` and the post-override
`best_truth_idx`, exactly as in the source. -/
def matchConf (threshold : α) (truths priors : List (Box α)) (labels : List ℕ) :
    List ℕ :=
  List.zipWith (fun o c => if o < threshold then 0 else c)
    (bestTruthOverlap truths priors)
    ((matchBTI truths priors).map fun t => labels.getD t 0 + 1)

/-- `matches = truths[best_truth_idx]` of `match`. -/
def matchMatches (truths priors : List (Box α)) : List (Box α) :=
  (matchBTI truths priors).map fun t => truths.getD t ⟨0, 0, 0, 0⟩

/-! ### Non-maximum suppression (`nms` of `box_utils.py`) -/

/-- The IoU computed inside the `nms` loop between the selected box `i`
and a remaining candidate `j`: clamped intersection, then
`inter / (rem_areas - inter + area[i])`. -/
def iouOf (boxes : List (Box α)) (i j : ℕ) : α :=
  let bi := boxes.getD i ⟨0, 0, 0, 0⟩
  let bj := boxes.getD j ⟨0, 0, 0, 0⟩
  let w := max (min bj.x2 bi.x2 - max bj.x0 bi.x0) 0
  let h := max (min bj.x3 bi.x3 - max bj.x1 bi.x1) 0
  let inter := w * h
  inter / ((area bj - inter) + area bi)

/-- `scores.sort(0)` of `nms`, on indices: the index list `0..n-1` stably
sorted by ascending score (insertion sort, equal keys keep their
original order). -/
def argsortAsc (s : List α) : List ℕ :=
  List.insertionSort (fun i j => s.getD i 0 ≤ s.getD j 0) (List.range s.length)

/-- Python's `l[-k:]` on a list: the last `k` elements, except that
`k = 0` yields the whole list (`l[-0:] = l[0:]`), exactly as in the
`idx = idx[-top_k:]` line of `nms`. -/
def pySliceLast (l : List ℕ) (k : ℕ) : List ℕ :=
  if k = 0 then l else l.drop (l.length - k)

/-- The greedy `while idx.numel() > 0` loop of `nms`, returning the kept
indices in selection order.  Each iteration takes the highest-scoring
remaining index (the last of the ascending pool), then filters the rest
by `IoU ≤ overlap`.  The loop removes at least one element per
iteration, so fuel `= pool.length` suffices; the fuel-exhausted branch
is unreachable from `nms` itself. -/
def nmsLoop (boxes : List (Box α)) (overlap : α) : ℕ → List ℕ → List ℕ
  | 0, _ => []
  | _, [] => []
  | fuel + 1, p :: ps =>
    let i := (p :: ps).getLast (List.cons_ne_nil p ps)
    if (p :: ps).length = 1 then [i]
    else
      i :: nmsLoop boxes overlap fuel
        (((p :: ps).dropLast).filter fun j => iouOf boxes i j ≤ overlap)

/-- The `keep[count] = i` writes of `nms`: overwrite `base` with the
selected indices starting at position `c`. -/
def writeSel (base : List ℕ) : ℕ → List ℕ → List ℕ
  | _, [] => base
  | c, s :: rest => writeSel (base.set c s) (c + 1) rest

/-- `nms` of `box_utils.py`.  The two `return` statements of the source
have different shapes — `return keep` (a zero tensor of `scores`'s
length) when `boxes.numel() == 0`, and `return keep, count` otherwise —
modelled by the two sides of a sum type. -/
def nms (boxes : List (Box α)) (scores : List α) (overlap : α) (top_k : ℕ) :
    List ℕ ⊕ (List ℕ × ℕ) :=
  let keep := List.replicate scores.length 0
  if boxes.isEmpty then Sum.inl keep
  else
    let idx := pySliceLast (argsortAsc scores) top_k
    let sel := nmsLoop boxes overlap idx.length idx
    Sum.inr (writeSel keep 0 sel, sel.length)

/-! ### Evaluation metrics (`measure` of `box_utils.py`, `evaluate` and
`avg` of `train.py`) -/

/-- `measure(pred_boxes, gt_boxes, width, height)` of `box_utils.py`,
returning `(accuracy, precision, recall)`.  The `width`/`height`
arguments are kept although the live code never reads them (they feed
only a commented-out canvas variant). -/
def measure (pred_boxes gt_boxes : List (Box α)) (width height : α) : α × α × α :=
  if gt_boxes.length = 0 ∧ pred_boxes.length = 0 then (1, 1, 1)
  else if gt_boxes.length = 0 ∧ pred_boxes.length ≠ 0 then (0, 0, 0)
  else if gt_boxes.length ≠ 0 ∧ pred_boxes.length = 0 then (0, 0, 0)
  else
    let inter := intersectMat pred_boxes gt_boxes
    let text_area := get_box_size pred_boxes
    let gt_area := get_box_size gt_boxes
    let num_sample : ℕ := max text_area.length gt_area.length
    let accuracy := ((List.range gt_boxes.length).map fun g =>
      (maxWithIdx (col (jaccardMat pred_boxes gt_boxes) g)).1).sum / (num_sample : α)
    let precision := (List.zipWith (fun m a => m / a)
      (inter.map fun r => (maxWithIdx r).1) text_area).sum / (num_sample : α)
    let recall_ := (List.zipWith (fun m a => m / a)
      ((List.range gt_boxes.length).map fun g => (maxWithIdx (col inter g)).1)
      gt_area).sum / (num_sample : α)
    (accuracy, precision, recall_)

/-- `avg` of `train.py`: `sum(list) / len(list)`.  On the empty list the
Python version raises `ZeroDivisionError`; here total division returns
`0` (no claim depends on the empty case). -/
def avg (l : List α) : α := l.sum / (l.length : α)

/-- The F1 derivation of `evaluate`: `0` when `recall + precision < 1e-3`,
otherwise `2·(recall·precision)/(recall + precision)`. -/
def f1Of (p r : α) : α :=
  if r + p < 1 / 1000 then 0
  else 2 * (r * p) / (r + p)

/-- `positive_pred` of `evaluate`: the predicted boxes whose best IoU
against the class's ground truth exceeds `0.5`
(`boxes[overlap.squeeze(1) > 0.5]`). -/
def positive_pred (boxes gt : List (Box α)) : List (Box α) :=
  let overlap := (jaccardMat boxes gt).map fun r => (maxWithIdx r).1
  ((boxes.zip overlap).filter fun bo => 1 / 2 < bo.2).map fun bo => bo.1

/-- The ground-truth bucket of class `c`: the boxes of the sample whose
label equals `c`, in order (`gt_boxes[int(cls)].append(tar[_i])`). -/
def gtBucket (tgt : List (Box α × ℕ)) (c : ℕ) : List (Box α) :=
  (tgt.filter fun bc => bc.2 == c).map fun bc => bc.1

/-- The body of the per-class loop of `evaluate` for one class/image
bucket: `none` when both the thresholded detections and the ground
truth are empty (the `continue` branch), hard-coded scores when exactly
one is empty, and otherwise `measure` applied to the positive
predictions followed by the F1 derivation. -/
def evalBucket (boxes gt : List (Box α)) (w h : α) : Option (α × α × α × α) :=
  if boxes.length = 0 ∧ gt.length = 0 then none
  else if boxes.length ≠ 0 ∧ gt.length = 0 then some (0, 0, 1, 0)
  else if boxes.length = 0 ∧ gt.length ≠ 0 then some (0, 1, 0, 0)
  else
    let m := measure (positive_pred boxes gt) gt w h
    some (m.1, m.2.1, m.2.2, f1Of m.2.1 m.2.2)

/-- The iteration skeleton of `evaluate`, abstracted over the per-bucket
scoring function: per image, split detections of classes `1..C-1` by the
confidence threshold, bucket ground truth by class `j-1`, score each
bucket, and average the four metrics over all scored buckets. -/
def evaluateWith
    (bucket : List (Box α) → List (Box α) → α → α → Option (α × α × α × α))
    (detections : List (List (List (α × Box α))))
    (targets : List (List (Box α × ℕ))) (threshold w h : α) : α × α × α × α :=
  let results := (detections.zip targets).flatMap fun it =>
    ((List.range it.1.length).drop 1).filterMap fun j =>
      bucket ((it.1.getD j []).filterMap fun sb =>
          if threshold ≤ sb.1 then some sb.2 else none)
        (gtBucket it.2 (j - 1)) w h
  (avg (results.map fun r => r.1), avg (results.map fun r => r.2.1),
   avg (results.map fun r => r.2.2.1), avg (results.map fun r => r.2.2.2))

/-- `evaluate` of `train.py`.  `detections` is indexed
image → class → detection row `(score, box)` (the `detections[i,j,:,0]`
score column and `detections[i,j,idx,1:]` box columns); `targets` is
indexed image → ground-truth row `(box, label)`. -/
def evaluate (detections : List (List (List (α × Box α))))
    (targets : List (List (Box α × ℕ))) (threshold w h : α) : α × α × α × α :=
  let results := (detections.zip targets).flatMap fun it =>
    ((List.range it.1.length).drop 1).filterMap fun j =>
      evalBucket ((it.1.getD j []).filterMap fun sb =>
          if threshold ≤ sb.1 then some sb.2 else none)
        (gtBucket it.2 (j - 1)) w h
  (avg (results.map fun r => r.1), avg (results.map fun r => r.2.1),
   avg (results.map fun r => r.2.2.1), avg (results.map fun r => r.2.2.2))

/-- The per-bucket scoring that the specification describes: `measure`
applied to the class's predicted boxes themselves (not to the positive
predictions), followed by the F1 derivation.  Kept for comparison with
`evalBucket`. -/
def claimBucket (boxes gt : List (Box α)) (w h : α) : Option (α × α × α × α) :=
  if boxes.length = 0 ∧ gt.length = 0 then none
  else
    let m := measure boxes gt w h
    some (m.1, m.2.1, m.2.2, f1Of m.2.1 m.2.2)

/-- `evaluate` as the specification's words describe it: the same
iteration skeleton, but every scored bucket is `measure` on the class's
predicted boxes plus F1. -/
def claimedEvaluate (detections : List (List (List (α × Box α))))
    (targets : List (List (Box α × ℕ))) (threshold w h : α) : α × α × α × α :=
  evaluateWith claimBucket detections targets threshold w h

/-- The per-bucket scoring in the amended wording: skip when both sets
are empty; score `(0,0,1,0)` when only predictions exist and
`(0,1,0,0)` when only ground truth exists; otherwise apply `measure` to
the positive predictions (best IoU `> 0.5`) and derive F1. -/
def specBucketScore (boxes gt : List (Box α)) (w h : α) : Option (α × α × α × α) :=
  match boxes, gt with
  | [], [] => none
  | _ :: _, [] => some (0, 0, 1, 0)
  | [], _ :: _ => some (0, 1, 0, 0)
  | b :: bs, g :: gs =>
    let m := measure (positive_pred (b :: bs) (g :: gs)) (g :: gs) w h
    some (m.1, m.2.1, m.2.2, f1Of m.2.1 m.2.2)

/-- `evaluate` as the amended specification words describe it. -/
def specEvaluate (detections : List (List (List (α × Box α))))
    (targets : List (List (Box α × ℕ))) (threshold w h : α) : α × α × α × α :=
  evaluateWith specBucketScore detections targets threshold w h

/-! ### Encoder, decoder and the full matcher (over `ℝ`, since `encode`
and `decode` use the transcendental `log`/`exp`) -/

/-- One row of `encode` of `box_utils.py`: center offset
`((m_center - p_center) / (v0 · p_size))` and size offset
`log(m_size / p_size) / v1`.  The source's `variances` list is passed as
the two scalars `v0 = variances[0]`, `v1 = variances[1]`. -/
noncomputable def encode1 (m p : Box ℝ) (v0 v1 : ℝ) : Box ℝ :=
  ⟨((m.x0 + m.x2) / 2 - p.x0) / (v0 * p.x2),
   ((m.x1 + m.x3) / 2 - p.x1) / (v0 * p.x3),
   Real.log ((m.x2 - m.x0) / p.x2) / v1,
   Real.log ((m.x3 - m.x1) / p.x3) / v1⟩

/-- `encode(matched, priors, variances)` of `box_utils.py`, row-wise. -/
noncomputable def encode (matched priors : List (Box ℝ)) (v0 v1 : ℝ) : List (Box ℝ) :=
  List.zipWith (fun m p => encode1 m p v0 v1) matched priors

/-- One row of `decode` of `box_utils.py`: reconstruct the center-form
box `(p_center + l_center · v0 · p_size, p_size · exp(l_size · v1))`,
then convert in place to corner form. -/
noncomputable def decode1 (l p : Box ℝ) (v0 v1 : ℝ) : Box ℝ :=
  let cx := p.x0 + l.x0 * v0 * p.x2
  let cy := p.x1 + l.x1 * v0 * p.x3
  let w := p.x2 * Real.exp (l.x2 * v1)
  let h := p.x3 * Real.exp (l.x3 * v1)
  ⟨cx - w / 2, cy - h / 2, (cx - w / 2) + w, (cy - h / 2) + h⟩

/-- `decode(loc, priors, variances)` of `box_utils.py`, row-wise. -/
noncomputable def decode (loc priors : List (Box ℝ)) (v0 v1 : ℝ) : List (Box ℝ) :=
  List.zipWith (fun l p => decode1 l p v0 v1) loc priors

/-- `match` of `box_utils.py` (`match` is a reserved word in Lean).  The
caller-owned buffers `loc_t` (image → per-prior location targets) and
`conf_t` (image → per-prior confidence targets) are threaded
functionally: the result is the pair of updated buffers together with
the optional `(overlaps, conf)` value returned in `visualize` mode. -/
noncomputable def matchFn (threshold : ℝ) (truths priors : List (Box ℝ))
    (v0 v1 : ℝ) (labels : List ℕ) (loc_t : List (List (Box ℝ)))
    (conf_t : List (List ℕ)) (idx : ℕ) (visualize : Bool) :
    List (List (Box ℝ)) × List (List ℕ) × Option (List (List ℝ) × List ℕ) :=
  let overlaps := overlapsOf truths priors
  let matched := matchMatches truths priors
  let conf := matchConf threshold truths priors labels
  if visualize then (loc_t, conf_t, some (overlaps, conf))
  else
    let loc := encode matched priors v0 v1
    (loc_t.set idx loc, conf_t.set idx conf, none)

/-! ### List helper lemmas -/

theorem getD_set_ne (l : List ℕ) (i j a d : ℕ) (h : i ≠ j) :
    (l.set i a).getD j d = l.getD j d := by
  simp [List.getD_eq_getElem?_getD, List.getElem?_set_ne h]

theorem getD_set_self (l : List ℕ) (i a d : ℕ) (h : i < l.length) :
    (l.set i a).getD i d = a := by
  simp [List.getD_eq_getElem?_getD, List.getElem?_set_self h]

theorem getD_mem (l : List ℕ) (q d : ℕ) (h : q < l.length) : l.getD q d ∈ l := by
  rw [List.getD_eq_getElem l d h]
  exact List.getElem_mem h

theorem ext_of_getD : ∀ (l₁ l₂ : List ℕ), l₁.length = l₂.length →
    (∀ q, l₁.getD q 0 = l₂.getD q 0) → l₁ = l₂
  | [], [], _, _ => rfl
  | [], _ :: _, hlen, _ => by simp at hlen
  | _ :: _, [], hlen, _ => by simp at hlen
  | a :: t₁, b :: t₂, hlen, h => by
    have h0 := h 0
    simp only [List.getD_cons_zero] at h0
    have ht := ext_of_getD t₁ t₂ (by simpa using hlen) fun q => by
      simpa using h (q + 1)
    rw [h0, ht]

/-! ### Lemmas about the forced-coverage override of `match` -/

theorem overrideLoop_length : ∀ (ps b : List ℕ) (j : ℕ),
    (overrideLoop b ps j).length = b.length
  | [], _, _ => rfl
  | _ :: rest, b, j => by
    simp only [overrideLoop]
    rw [overrideLoop_length rest]
    simp

theorem overrideLoop_getD_of_not_mem : ∀ (ps b : List ℕ) (j q : ℕ), q ∉ ps →
    (overrideLoop b ps j).getD q 0 = b.getD q 0
  | [], _, _, _, _ => rfl
  | p :: rest, b, j, q, h => by
    have hq : ¬(q = p) ∧ q ∉ rest := by simpa [List.mem_cons, not_or] using h
    simp only [overrideLoop]
    rw [overrideLoop_getD_of_not_mem rest _ _ _ hq.2,
      getD_set_ne _ _ _ _ _ fun hpq => hq.1 hpq.symm]

theorem overrideLoop_agree : ∀ (ps b₁ b₂ : List ℕ) (j : ℕ),
    b₁.length = b₂.length → (∀ q, q ∉ ps → b₁.getD q 0 = b₂.getD q 0) →
    overrideLoop b₁ ps j = overrideLoop b₂ ps j
  | [], b₁, b₂, _, hlen, hagree =>
    ext_of_getD b₁ b₂ hlen fun q => hagree q (List.not_mem_nil q)
  | p :: rest, b₁, b₂, j, hlen, hagree => by
    simp only [overrideLoop]
    apply overrideLoop_agree rest _ _ _ (by simp [hlen])
    intro q hq
    by_cases hpq : p = q
    · subst hpq
      by_cases hpl : p < b₁.length
      · rw [getD_set_self _ _ _ _ hpl, getD_set_self _ _ _ _ (hlen ▸ hpl)]
      · rw [List.getD_eq_default _ _ (by simpa using Nat.le_of_not_lt hpl),
          List.getD_eq_default _ _ (by simp; omega)]
    · rw [getD_set_ne _ _ _ _ _ hpq, getD_set_ne _ _ _ _ _ hpq]
      refine hagree q ?_
      simp only [List.mem_cons, not_or]
      exact ⟨fun h => hpq h.symm, hq⟩

theorem overrideLoop_getD_last : ∀ (ps b : List ℕ) (j g : ℕ),
    g < ps.length →
    (∀ g', g' < ps.length → g < g' → ps.getD g' 0 ≠ ps.getD g 0) →
    ps.getD g 0 < b.length →
    (overrideLoop b ps j).getD (ps.getD g 0) 0 = j + g
  | [], _, _, g, hg, _, _ => absurd hg (by simp)
  | p :: rest, b, j, 0, _, hno, hb => by
    simp only [List.getD_cons_zero] at hb ⊢
    have hrest : p ∉ rest := by
      intro hmem
      obtain ⟨k, hk, hkeq⟩ := List.mem_iff_getElem.mp hmem
      have hkd : rest.getD k 0 = p := by
        rw [List.getD_eq_getElem rest 0 hk]; exact hkeq
      exact hno (k + 1) (by simpa using Nat.succ_lt_succ hk) (Nat.succ_pos k)
        (by simpa using hkd)
    simp only [overrideLoop]
    rw [overrideLoop_getD_of_not_mem rest _ _ _ hrest, getD_set_self _ _ _ _ hb]
    omega
  | p :: rest, b, j, g + 1, hg, hno, hb => by
    simp only [List.getD_cons_succ] at hb ⊢
    simp only [overrideLoop]
    have ih := overrideLoop_getD_last rest (b.set p j) (j + 1) g
      (by simpa using hg)
      (fun g' h1 h2 => by
        simpa using hno (g' + 1) (by simpa using Nat.succ_lt_succ h1)
          (Nat.succ_lt_succ h2))
      (by simpa using hb)
    rw [ih]
    omega

/-! ### Shape lemmas for the `match` pipeline -/

theorem maxWithIdx_idx_lt : ∀ (l : List α), l ≠ [] → (maxWithIdx l).2 < l.length
  | [], h => absurd rfl h
  | [_], _ => by simp [maxWithIdx]
  | a :: b :: rest, _ => by
    have ih := maxWithIdx_idx_lt (b :: rest) (List.cons_ne_nil b rest)
    simp only [List.length_cons] at ih ⊢
    simp only [maxWithIdx]
    by_cases h : (maxWithIdx (b :: rest)).1 ≤ a <;> simp [h] <;> omega

theorem overlapsOf_length (truths priors : List (Box α)) :
    (overlapsOf truths priors).length = truths.length := by
  simp [overlapsOf, jaccardMat]

theorem overlapsOf_row_length (truths priors : List (Box α)) :
    ∀ r ∈ overlapsOf truths priors, r.length = priors.length := by
  intro r hr
  simp only [overlapsOf, jaccardMat, List.mem_map] at hr
  obtain ⟨a, -, rfl⟩ := hr
  simp

theorem bestPriorIdx_length (truths priors : List (Box α)) :
    (bestPriorIdx truths priors).length = truths.length := by
  simp [bestPriorIdx, overlapsOf, jaccardMat]

theorem bestTruthIdxPre_length (truths priors : List (Box α)) :
    (bestTruthIdxPre truths priors).length = priors.length := by
  simp [bestTruthIdxPre]

theorem bestTruthOverlap_length (truths priors : List (Box α)) :
    (bestTruthOverlap truths priors).length = priors.length := by
  simp [bestTruthOverlap]

theorem matchBTI_length (truths priors : List (Box α)) :
    (matchBTI truths priors).length = priors.length := by
  rw [matchBTI, overrideLoop_length, overrideLoop_length, bestTruthIdxPre_length]

theorem bestPriorIdx_getD_lt (truths priors : List (Box α)) (g : ℕ)
    (hg : g < truths.length) (hp : priors ≠ []) :
    (bestPriorIdx truths priors).getD g 0 < priors.length := by
  have hlen : g < (overlapsOf truths priors).length := by
    rwa [overlapsOf_length]
  rw [bestPriorIdx, List.getD_eq_getElem _ _ (by simpa using hlen), List.getElem_map]
  have hrow : (overlapsOf truths priors)[g].length = priors.length :=
    overlapsOf_row_length truths priors _ (List.getElem_mem hlen)
  rw [← hrow]
  apply maxWithIdx_idx_lt
  apply List.ne_nil_of_length_pos
  rw [hrow]
  exact List.length_pos.mpr hp

/-! ### Claim C10: the vectorized pre-assignment is redundant -/

/-- C10: in `match`, the vectorized pre-assignment
`best_truth_idx[best_prior_idx] = torch.arange(num_gt)` is made redundant
by the subsequent sequential loop: for every input, the final
`best_truth_idx` equals what the loop alone (without the vectorized
assignment) would produce, because the loop rewrites every position in
`best_prior_idx` in ascending ground-truth order, so the later ground
truth deterministically wins on shared best priors.  (The proof goes
through `overrideLoop_agree`, which shows the loop's result depends only
on initial values at positions outside `best_prior_idx`; hence any
duplicate-resolution order of the vectorized scatter gives the same
final array.) -/
theorem match_vectorized_redundant {α : Type} [LinearOrderedField α]
    (truths priors : List (Box α)) :
    matchBTI truths priors = matchBTIloopOnly truths priors := by
  simp only [matchBTI, matchBTIloopOnly]
  exact overrideLoop_agree _ _ _ _ (overrideLoop_length _ _ _)
    fun q hq => overrideLoop_getD_of_not_mem _ _ _ _ hq

/-! ### Claim C1: forced coverage of ground truths -/

/-- C1 (amended): after `match` runs, a ground-truth index `g` is
guaranteed to appear in the resulting `best_truth_idx` provided no
later ground truth `g' > g` shares `g`'s best prior; in particular the
last ground-truth index always appears.  (The unamended claim — that
every `g` appears — fails when two ground truths share a best prior;
see the counterexample.) -/
theorem match_coverage_amended (truths priors : List (Box ℚ)) (g : ℕ)
    (hg : g < truths.length) (hp : priors ≠ [])
    (hno : ∀ g', g' < truths.length → g < g' →
      (bestPriorIdx truths priors).getD g' 0 ≠ (bestPriorIdx truths priors).getD g 0) :
    g ∈ matchBTI truths priors := by
  show g ∈ overrideLoop
    (overrideLoop (bestTruthIdxPre truths priors) (bestPriorIdx truths priors) 0)
    (bestPriorIdx truths priors) 0
  have hbl : (bestPriorIdx truths priors).length = truths.length :=
    bestPriorIdx_length truths priors
  have hpg : (bestPriorIdx truths priors).getD g 0 <
      (overrideLoop (bestTruthIdxPre truths priors) (bestPriorIdx truths priors) 0).length := by
    rw [overrideLoop_length, bestTruthIdxPre_length]
    exact bestPriorIdx_getD_lt truths priors g hg hp
  have hfin := overrideLoop_getD_last (bestPriorIdx truths priors) _ 0 g (hbl ▸ hg)
    (fun g' h1 h2 => hno g' (hbl ▸ h1) h2) hpg
  have hq : (bestPriorIdx truths priors).getD g 0 <
      (overrideLoop
        (overrideLoop (bestTruthIdxPre truths priors) (bestPriorIdx truths priors) 0)
        (bestPriorIdx truths priors) 0).length := by
    rwa [overrideLoop_length]
  have hmem := getD_mem _ _ 0 hq
  rwa [hfin, Nat.zero_add] at hmem

/-! ### Claim C5: confidence targets use the stale overlap -/

/-- C5: for every prior `p`, `match` assigns the confidence target
`labels[best_truth_idx[p]] + 1` and then suppresses it to background `0`
exactly when `best_truth_overlap[p] < threshold`, where
`best_truth_overlap` is the column-wise maximum computed before the
forced-coverage override (`bestTruthOverlap`) while `best_truth_idx` is
the post-override assignment (`matchBTI`); the overlap is not recomputed
after the override. -/
theorem match_conf_suppression (th : ℚ) (truths priors : List (Box ℚ))
    (labels : List ℕ) (p : ℕ) (hp : p < priors.length) :
    (matchConf th truths priors labels).getD p 0 =
      (if (bestTruthOverlap truths priors).getD p 0 < th then 0
       else labels.getD ((matchBTI truths priors).getD p 0) 0 + 1) ∧
    ((matchConf th truths priors labels).getD p 0 = 0 ↔
      (bestTruthOverlap truths priors).getD p 0 < th) := by
  have hl1 : p < (bestTruthOverlap truths priors).length := by
    rw [bestTruthOverlap_length]; exact hp
  have hlb : p < (matchBTI truths priors).length := by
    rw [matchBTI_length]; exact hp
  have hl2 : p < ((matchBTI truths priors).map fun t => labels.getD t 0 + 1).length := by
    rw [List.length_map]; exact hlb
  have hz : p < (matchConf th truths priors labels).length := by
    simp only [matchConf, List.length_zipWith, List.length_map,
      bestTruthOverlap_length, matchBTI_length, min_self]
    exact hp
  have hmain : (matchConf th truths priors labels).getD p 0 =
      (if (bestTruthOverlap truths priors).getD p 0 < th then 0
       else labels.getD ((matchBTI truths priors).getD p 0) 0 + 1) := by
    rw [List.getD_eq_getElem _ _ hz]
    simp only [matchConf]
    rw [List.getElem_zipWith, List.getElem_map,
      ← List.getD_eq_getElem (bestTruthOverlap truths priors) 0 hl1,
      ← List.getD_eq_getElem (matchBTI truths priors) 0 hlb]
  refine ⟨hmain, ?_⟩
  rw [hmain]
  by_cases h : (bestTruthOverlap truths priors).getD p 0 < th <;> simp [h]

/-! ### Claim C2: jaccard on a zero-area union -/

/-- C2 (amended): for valid boxes whose areas are both zero, the union
`area_a + area_b - inter` that `jaccard` divides by is exactly zero, so
the division is performed with a zero denominator: in IEEE arithmetic
the result is `NaN` (modelled by `none`), not `0` — the source has no
guard for this case. -/
theorem jaccard_zero_union_nan {α : Type} [LinearOrderedField α] (a b : Box α)
    (hva : a.x0 ≤ a.x2) (hva' : a.x1 ≤ a.x3) (hvb : b.x0 ≤ b.x2) (hvb' : b.x1 ≤ b.x3)
    (ha : area a = 0) (hb : area b = 0) :
    area a + area b - intersect a b = 0 ∧ jaccardChecked a b = none := by
  have hia : intersect a b = 0 := by
    rcases mul_eq_zero.mp ha with h | h
    · have hle : min a.x2 b.x2 - max a.x0 b.x0 ≤ 0 := by
        calc min a.x2 b.x2 - max a.x0 b.x0 ≤ a.x2 - a.x0 :=
              sub_le_sub (min_le_left _ _) (le_max_left _ _)
          _ = 0 := by linarith [sub_eq_zero.mpr (sub_eq_zero.mp h)]
      rw [intersect, max_eq_left hle, zero_mul]
    · have hle : min a.x3 b.x3 - max a.x1 b.x1 ≤ 0 := by
        calc min a.x3 b.x3 - max a.x1 b.x1 ≤ a.x3 - a.x1 :=
              sub_le_sub (min_le_left _ _) (le_max_left _ _)
          _ = 0 := h
      rw [intersect, max_eq_left hle, mul_zero]
  have hu : area a + area b - intersect a b = 0 := by
    rw [ha, hb, hia]; ring
  exact ⟨hu, by rw [jaccardChecked, divChecked, if_pos hu]⟩

/-! ### Claim C4: nms on an empty candidate set -/

/-- C4 (amended): on an empty candidate set, `nms` does not raise but
returns only the zero-initialized keep tensor (of the scores' length,
hence empty when the scores are empty), with no count value — the early
`return keep` of the source, unlike the `return keep, count` of the
normal path. -/
theorem nms_empty_returns_keep_only {α : Type} [LinearOrderedField α]
    (scores : List α) (ov : α) (tk : ℕ) :
    nms [] scores ov tk = Sum.inl (List.replicate scores.length 0) := rfl

/-! ### Lemmas about the `nms` greedy loop -/

theorem nmsLoop_length_le (boxes : List (Box α)) (ov : α) :
    ∀ (fuel : ℕ) (pool : List ℕ), (nmsLoop boxes ov fuel pool).length ≤ pool.length
  | 0, _ => by simp [nmsLoop]
  | _ + 1, [] => by simp [nmsLoop]
  | fuel + 1, p :: ps => by
    simp only [nmsLoop]
    split_ifs with h1
    · simp
    · have ih := nmsLoop_length_le boxes ov fuel
        (((p :: ps).dropLast).filter fun j => iouOf boxes ((p :: ps).getLast (List.cons_ne_nil p ps)) j ≤ ov)
      have hfil := List.length_filter_le
        (fun j => decide (iouOf boxes ((p :: ps).getLast (List.cons_ne_nil p ps)) j ≤ ov))
        ((p :: ps).dropLast)
      have hdl : (p :: ps).dropLast.length = ps.length := by
        simp [List.length_dropLast]
      simp only [List.length_cons] at ih hfil hdl ⊢
      omega

theorem nmsLoop_subset (boxes : List (Box α)) (ov : α) :
    ∀ (fuel : ℕ) (pool : List ℕ) (x : ℕ), x ∈ nmsLoop boxes ov fuel pool → x ∈ pool
  | 0, _, _, hx => by simp [nmsLoop] at hx
  | _ + 1, [], _, hx => by simp [nmsLoop] at hx
  | fuel + 1, p :: ps, x, hx => by
    simp only [nmsLoop] at hx
    split_ifs at hx with h1
    · simp only [List.mem_singleton] at hx
      exact hx ▸ List.getLast_mem (List.cons_ne_nil p ps)
    · rcases List.mem_cons.mp hx with rfl | hx'
      · exact List.getLast_mem (List.cons_ne_nil p ps)
      · have hmem := nmsLoop_subset boxes ov fuel _ x hx'
        exact (List.dropLast_sublist (p :: ps)).subset (List.mem_filter.mp hmem).1

theorem nmsLoop_pairwise (boxes : List (Box α)) (ov : α) :
    ∀ (fuel : ℕ) (pool : List ℕ),
      List.Pairwise (fun i j => iouOf boxes i j ≤ ov) (nmsLoop boxes ov fuel pool)
  | 0, _ => by simp [nmsLoop]
  | _ + 1, [] => by simp [nmsLoop]
  | fuel + 1, p :: ps => by
    simp only [nmsLoop]
    split_ifs with h1
    · simp
    · refine List.pairwise_cons.mpr ⟨fun a ha => ?_, nmsLoop_pairwise boxes ov fuel _⟩
      have hmem := nmsLoop_subset boxes ov fuel _ a ha
      have := (List.mem_filter.mp hmem).2
      simpa using this

theorem writeSel_length : ∀ (sel base : List ℕ) (c : ℕ),
    (writeSel base c sel).length = base.length
  | [], _, _ => rfl
  | _ :: rest, base, c => by
    simp only [writeSel]
    rw [writeSel_length rest]
    simp

theorem writeSel_getD_lt_start : ∀ (sel base : List ℕ) (c q : ℕ), q < c →
    (writeSel base c sel).getD q 0 = base.getD q 0
  | [], _, _, _, _ => rfl
  | _ :: rest, base, c, q, hq => by
    simp only [writeSel]
    rw [writeSel_getD_lt_start rest _ _ _ (by omega),
      getD_set_ne _ _ _ _ _ (by omega)]

theorem writeSel_getD_lt : ∀ (sel base : List ℕ) (c k : ℕ), k < sel.length →
    c + sel.length ≤ base.length →
    (writeSel base c sel).getD (c + k) 0 = sel.getD k 0
  | [], _, _, k, hk, _ => absurd hk (by simp)
  | s :: rest, base, c, 0, _, hle => by
    simp only [writeSel, Nat.add_zero, List.getD_cons_zero]
    rw [writeSel_getD_lt_start rest _ _ _ (by omega),
      getD_set_self _ _ _ _ (by simp only [List.length_cons] at hle; omega)]
  | s :: rest, base, c, k + 1, hk, hle => by
    simp only [writeSel, List.getD_cons_succ]
    have ih := writeSel_getD_lt rest (base.set c s) (c + 1) k
      (by simpa using hk)
      (by simp only [List.length_set, List.length_cons] at hle ⊢; omega)
    rw [show c + (k + 1) = (c + 1) + k by omega, ih]

theorem argsortAsc_length (s : List α) : (argsortAsc s).length = s.length := by
  simp [argsortAsc, List.length_insertionSort]

theorem argsortAsc_sorted (s : List α) :
    (argsortAsc s).Pairwise fun i j => s.getD i 0 ≤ s.getD j 0 := by
  haveI : IsTotal ℕ fun i j => s.getD i 0 ≤ s.getD j 0 := ⟨fun _ _ => le_total _ _⟩
  haveI : IsTrans ℕ fun i j => s.getD i 0 ≤ s.getD j 0 := ⟨fun _ _ _ => le_trans⟩
  exact List.sorted_insertionSort _ _

theorem pySliceLast_length_le (l : List ℕ) (k : ℕ) (hk : 0 < k) :
    (pySliceLast l k).length ≤ k := by
  rw [pySliceLast, if_neg (Nat.pos_iff_ne_zero.mp hk)]
  simp only [List.length_drop]
  omega

theorem pySliceLast_length_le_self (l : List ℕ) (k : ℕ) :
    (pySliceLast l k).length ≤ l.length := by
  rw [pySliceLast]
  split_ifs
  · exact le_rfl
  · simp only [List.length_drop]
    omega

/-- Elements dropped by the `idx[-top_k:]` slice score no higher than any
retained element: the slice keeps a suffix of the ascending sort. -/
theorem pySliceLast_ge_dropped (s : List α) (k i p : ℕ)
    (hi : i ∈ argsortAsc s) (hni : i ∉ pySliceLast (argsortAsc s) k)
    (hp : p ∈ pySliceLast (argsortAsc s) k) : s.getD i 0 ≤ s.getD p 0 := by
  rw [pySliceLast] at hni hp
  split_ifs at hni hp with h0
  · exact absurd hi hni
  · have hsorted := argsortAsc_sorted s
    have hsplit : argsortAsc s =
        (argsortAsc s).take ((argsortAsc s).length - k) ++
          (argsortAsc s).drop ((argsortAsc s).length - k) :=
      (List.take_append_drop _ _).symm
    have hpw := List.pairwise_append.mp (hsplit ▸ hsorted)
    have hi' : i ∈ (argsortAsc s).take ((argsortAsc s).length - k) := by
      rcases List.mem_append.mp (hsplit ▸ hi) with h | h
      · exact h
      · exact absurd h hni
    exact hpw.2.2 i hi' p hp

/-- Unfolds a successful (`Sum.inr`) run of `nms` into the slice, the
greedy loop and the keep-array write-back. -/
theorem nms_inr_elim {boxes : List (Box α)} {scores : List α} {ov : α} {tk : ℕ}
    {keep : List ℕ} {count : ℕ}
    (heq : nms boxes scores ov tk = Sum.inr (keep, count)) :
    keep = writeSel (List.replicate scores.length 0) 0
      (nmsLoop boxes ov (pySliceLast (argsortAsc scores) tk).length
        (pySliceLast (argsortAsc scores) tk)) ∧
    count = (nmsLoop boxes ov (pySliceLast (argsortAsc scores) tk).length
      (pySliceLast (argsortAsc scores) tk)).length := by
  simp only [nms] at heq
  by_cases hb : boxes.isEmpty = true
  · rw [if_pos hb] at heq
    simp at heq
  · rw [if_neg hb] at heq
    simp only [Sum.inr.injEq, Prod.mk.injEq] at heq
    exact ⟨heq.1.symm, heq.2.symm⟩

/-! ### Claim C6: at most `top_k` candidates are considered -/

/-- C6: for every run of `nms` with a positive `top_k` cap (the
configuration contract) that returns a `(keep, count)` pair, the
returned count is at most `top_k`; every index among the first `count`
kept entries comes from the sliced pool `idx[-top_k:]`, which itself
retains at most `top_k` candidates, and every candidate outside that
pool scores no higher than any pool member — so at most the `top_k`
highest-scoring candidates are ever considered. -/
theorem nms_topk_bound (boxes : List (Box ℚ)) (scores : List ℚ) (ov : ℚ)
    (tk k i p : ℕ) (keep : List ℕ) (count : ℕ)
    (htk : 0 < tk)
    (heq : nms boxes scores ov tk = Sum.inr (keep, count)) :
    count ≤ tk ∧
    (pySliceLast (argsortAsc scores) tk).length ≤ tk ∧
    (k < count → keep.getD k 0 ∈ pySliceLast (argsortAsc scores) tk) ∧
    (i ∈ argsortAsc scores → i ∉ pySliceLast (argsortAsc scores) tk →
      p ∈ pySliceLast (argsortAsc scores) tk →
      scores.getD i 0 ≤ scores.getD p 0) := by
  obtain ⟨hkeep, hcount⟩ := nms_inr_elim heq
  have hplen : (pySliceLast (argsortAsc scores) tk).length ≤ tk :=
    pySliceLast_length_le _ _ htk
  have hsellen := nmsLoop_length_le boxes ov
    (pySliceLast (argsortAsc scores) tk).length (pySliceLast (argsortAsc scores) tk)
  have hbase : (nmsLoop boxes ov (pySliceLast (argsortAsc scores) tk).length
      (pySliceLast (argsortAsc scores) tk)).length ≤ scores.length := by
    have := pySliceLast_length_le_self (argsortAsc scores) tk
    have := argsortAsc_length scores
    omega
  refine ⟨by omega, hplen, fun hk => ?_, fun h1 h2 h3 =>
    pySliceLast_ge_dropped scores tk i p h1 h2 h3⟩
  have hkk : k < (nmsLoop boxes ov (pySliceLast (argsortAsc scores) tk).length
      (pySliceLast (argsortAsc scores) tk)).length := by omega
  have hgd : keep.getD k 0 = (nmsLoop boxes ov
      (pySliceLast (argsortAsc scores) tk).length
      (pySliceLast (argsortAsc scores) tk)).getD k 0 := by
    rw [hkeep]
    have := writeSel_getD_lt _ (List.replicate scores.length 0) 0 k hkk
      (by simp only [List.length_replicate]; omega)
    simpa using this
  rw [hgd]
  exact nmsLoop_subset boxes ov _ _ _ (getD_mem _ k 0 hkk)

/-! ### Claim C7: kept boxes have pairwise IoU below the threshold -/

/-- The IoU computed inside the `nms` loop coincides with the pairwise
`jaccard` of the two boxes. -/
theorem iouOf_eq_jaccard (boxes : List (Box α)) (i j : ℕ) :
    iouOf boxes i j =
      jaccard (boxes.getD i ⟨0, 0, 0, 0⟩) (boxes.getD j ⟨0, 0, 0, 0⟩) := by
  simp only [iouOf, jaccard, intersect, area]
  rw [min_comm (boxes.getD j ⟨0, 0, 0, 0⟩).x2, max_comm (boxes.getD j ⟨0, 0, 0, 0⟩).x0,
    min_comm (boxes.getD j ⟨0, 0, 0, 0⟩).x3, max_comm (boxes.getD j ⟨0, 0, 0, 0⟩).x1,
    max_comm _ (0 : α), max_comm _ (0 : α)]
  congr 1
  ring

/-- C7: whenever `nms` returns a `(keep, count)` pair, any two distinct
entries among the first `count` kept indices point to boxes whose
pairwise IoU (`jaccard`) is at most the overlap threshold: each greedy
iteration filters from the pool every candidate whose IoU with the
just-selected box exceeds the threshold, so no later-kept box overlaps
an earlier-kept one above threshold. -/
theorem nms_kept_pairwise_iou (boxes : List (Box ℚ)) (scores : List ℚ) (ov : ℚ)
    (tk k1 k2 : ℕ) (keep : List ℕ) (count : ℕ)
    (heq : nms boxes scores ov tk = Sum.inr (keep, count))
    (h12 : k1 < k2) (h2 : k2 < count) :
    jaccard (boxes.getD (keep.getD k1 0) ⟨0, 0, 0, 0⟩)
      (boxes.getD (keep.getD k2 0) ⟨0, 0, 0, 0⟩) ≤ ov := by
  obtain ⟨hkeep, hcount⟩ := nms_inr_elim heq
  have hsellen := nmsLoop_length_le boxes ov
    (pySliceLast (argsortAsc scores) tk).length (pySliceLast (argsortAsc scores) tk)
  have hbase : (nmsLoop boxes ov (pySliceLast (argsortAsc scores) tk).length
      (pySliceLast (argsortAsc scores) tk)).length ≤ scores.length := by
    have := pySliceLast_length_le_self (argsortAsc scores) tk
    have := argsortAsc_length scores
    omega
  have hk2 : k2 < (nmsLoop boxes ov (pySliceLast (argsortAsc scores) tk).length
      (pySliceLast (argsortAsc scores) tk)).length := by omega
  have hk1 : k1 < (nmsLoop boxes ov (pySliceLast (argsortAsc scores) tk).length
      (pySliceLast (argsortAsc scores) tk)).length := by omega
  have hgd1 : keep.getD k1 0 = (nmsLoop boxes ov
      (pySliceLast (argsortAsc scores) tk).length
      (pySliceLast (argsortAsc scores) tk)).getD k1 0 := by
    rw [hkeep]
    have := writeSel_getD_lt _ (List.replicate scores.length 0) 0 k1 hk1
      (by simp only [List.length_replicate]; omega)
    simpa using this
  have hgd2 : keep.getD k2 0 = (nmsLoop boxes ov
      (pySliceLast (argsortAsc scores) tk).length
      (pySliceLast (argsortAsc scores) tk)).getD k2 0 := by
    rw [hkeep]
    have := writeSel_getD_lt _ (List.replicate scores.length 0) 0 k2 hk2
      (by simp only [List.length_replicate]; omega)
    simpa using this
  have hpw := nmsLoop_pairwise boxes ov
    (pySliceLast (argsortAsc scores) tk).length (pySliceLast (argsortAsc scores) tk)
  have hrel := List.pairwise_iff_get.mp hpw ⟨k1, hk1⟩ ⟨k2, hk2⟩
    (Fin.mk_lt_mk.mpr h12)
  rw [← iouOf_eq_jaccard, hgd1, hgd2,
    List.getD_eq_getElem _ 0 hk1, List.getD_eq_getElem _ 0 hk2]
  simpa [List.get_eq_getElem] using hrel

/-! ### Claim C8: what `evaluate` actually scores per bucket -/

theorem evalBucket_eq_specBucketScore (boxes gt : List (Box α)) (w h : α) :
    evalBucket boxes gt w h = specBucketScore boxes gt w h := by
  cases boxes <;> cases gt <;> simp [evalBucket, specBucketScore]

/-- C8 (amended): `evaluate` scores every class/image bucket as follows —
buckets with neither detections above the confidence threshold nor
ground truth are skipped; buckets with only detections score
`(0, 0, 1, 0)` and buckets with only ground truth score `(0, 1, 0, 0)`
without calling `measure`; buckets with both apply `measure()` to the
positive predictions (the class's predicted boxes whose best IoU against
the class's ground truth exceeds `0.5`), not to all of the class's
predicted boxes, and derive `F1 = 2·precision·recall/(precision+recall)`
with `F1 = 0` whenever `precision + recall < 1e-3`; the four metrics are
averaged over all scored buckets of all images of the batch. -/
theorem evaluate_amended {α : Type} [LinearOrderedField α]
    (detections : List (List (List (α × Box α))))
    (targets : List (List (Box α × ℕ))) (threshold w h : α) :
    evaluate detections targets threshold w h =
      specEvaluate detections targets threshold w h := by
  have hb : (evalBucket (α := α)) = specBucketScore := by
    funext boxes gt w' h'
    exact evalBucket_eq_specBucketScore boxes gt w' h'
  show evaluateWith evalBucket detections targets threshold w h =
    evaluateWith specBucketScore detections targets threshold w h
  rw [hb]

/-! ### Claim C3: decode is the exact algebraic inverse of encode -/

/-- Row form of the round trip: for a matched box with positive width and
height, a prior with positive sizes and positive variances, decoding the
encoding returns the matched box exactly. -/
theorem decode1_encode1 (m p : Box ℝ) (v0 v1 : ℝ) (hv0 : 0 < v0) (hv1 : 0 < v1)
    (hw : 0 < m.x2 - m.x0) (hh : 0 < m.x3 - m.x1) (hpw : 0 < p.x2) (hph : 0 < p.x3) :
    decode1 (encode1 m p v0 v1) p v0 v1 = m := by
  obtain ⟨m0, m1, m2, m3⟩ := m
  obtain ⟨p0, p1, p2, p3⟩ := p
  simp only at hw hh hpw hph
  have hcx : p0 + ((m0 + m2) / 2 - p0) / (v0 * p2) * v0 * p2 = (m0 + m2) / 2 := by
    field_simp
    ring
  have hcy : p1 + ((m1 + m3) / 2 - p1) / (v0 * p3) * v0 * p3 = (m1 + m3) / 2 := by
    field_simp
    ring
  have hww : p2 * Real.exp (Real.log ((m2 - m0) / p2) / v1 * v1) = m2 - m0 := by
    rw [div_mul_cancel₀ _ hv1.ne', Real.exp_log (div_pos hw hpw)]
    field_simp
  have hhh : p3 * Real.exp (Real.log ((m3 - m1) / p3) / v1 * v1) = m3 - m1 := by
    rw [div_mul_cancel₀ _ hv1.ne', Real.exp_log (div_pos hh hph)]
    field_simp
  simp only [encode1, decode1, Box.mk.injEq]
  rw [hcx, hcy, hww, hhh]
  refine ⟨by ring, by ring, by ring, by ring⟩

/-- C3: for every list of corner-form matched boxes with positive widths
and heights paired with priors with positive sizes, and positive
variances, `decode(encode(M,P,V),P,V) = M` holds exactly (hence in
particular within any floating tolerance such as `1e-4`): `decode` is
the exact algebraic inverse of `encode`. -/
theorem decode_encode_inverse (matched priors : List (Box ℝ)) (v0 v1 : ℝ)
    (hv0 : 0 < v0) (hv1 : 0 < v1)
    (h : List.Forall₂
      (fun m p => 0 < m.x2 - m.x0 ∧ 0 < m.x3 - m.x1 ∧ 0 < p.x2 ∧ 0 < p.x3)
      matched priors) :
    decode (encode matched priors v0 v1) priors v0 v1 = matched := by
  induction h with
  | nil => rfl
  | @cons m p ms ps hmp hrest ih =>
    simp only [encode, decode, List.zipWith_cons_cons] at ih ⊢
    rw [decode1_encode1 m p v0 v1 hv0 hv1 hmp.1 hmp.2.1 hmp.2.2.1 hmp.2.2.2, ih]

/-! ### Claim C9: the matcher's writes to the caller's buffers -/

/-- C9: `matchFn` writes the caller's output buffers exactly once per
call and only at the given sample slot.  In `visualize` mode it returns
the raw overlap matrix and the confidence vector, skips encoding, and
leaves both buffers untouched; otherwise it writes
`loc_t[idx] = encode(matches, priors, variances)` and
`conf_t[idx] = conf` and leaves every other slot of both buffers
unchanged. -/
theorem match_frame_effect (th : ℝ) (truths priors : List (Box ℝ)) (v0 v1 : ℝ)
    (labels : List ℕ) (loc_t : List (List (Box ℝ))) (conf_t : List (List ℕ))
    (idx k : ℕ) :
    matchFn th truths priors v0 v1 labels loc_t conf_t idx true =
      (loc_t, conf_t, some (overlapsOf truths priors, matchConf th truths priors labels)) ∧
    matchFn th truths priors v0 v1 labels loc_t conf_t idx false =
      (loc_t.set idx (encode (matchMatches truths priors) priors v0 v1),
       conf_t.set idx (matchConf th truths priors labels), none) ∧
    (k ≠ idx →
      (matchFn th truths priors v0 v1 labels loc_t conf_t idx false).1.getD k [] =
        loc_t.getD k [] ∧
      (matchFn th truths priors v0 v1 labels loc_t conf_t idx false).2.1.getD k [] =
        conf_t.getD k []) := by
  refine ⟨rfl, rfl, fun hk => ⟨?_, ?_⟩⟩
  · show (loc_t.set idx (encode (matchMatches truths priors) priors v0 v1)).getD k [] =
      loc_t.getD k []
    simp [List.getD_eq_getElem?_getD, List.getElem?_set_ne (Ne.symm hk)]
  · show (conf_t.set idx (matchConf th truths priors labels)).getD k [] =
      conf_t.getD k []
    simp [List.getD_eq_getElem?_getD, List.getElem?_set_ne (Ne.symm hk)]

/-- Witness for `decode_encode_inverse`: the matched box `(0,0,1,1)`
against the center-form prior `(0,0,1,1)` with both variances `1`
round-trips exactly. -/
theorem decode_encode_inverse_witness :
    decode (encode [(⟨0, 0, 1, 1⟩ : Box ℝ)] [⟨0, 0, 1, 1⟩] 1 1) [⟨0, 0, 1, 1⟩] 1 1 =
      [(⟨0, 0, 1, 1⟩ : Box ℝ)] :=
  decode_encode_inverse [⟨0, 0, 1, 1⟩] [⟨0, 0, 1, 1⟩] 1 1 one_pos one_pos
    (List.Forall₂.cons (by simp) List.Forall₂.nil)

/-- Witness for `match_frame_effect` at a concrete input (slot `0`
written, slot `1` inspected). -/
theorem match_frame_effect_witness :
    matchFn 1 [(⟨0, 0, 1, 1⟩ : Box ℝ)] [⟨0, 0, 1, 1⟩] 1 1 [0] [[], []] [[], []] 0 true =
      ([[], []],  [[], []],
        some (overlapsOf [(⟨0, 0, 1, 1⟩ : Box ℝ)] [⟨0, 0, 1, 1⟩],
          matchConf 1 [(⟨0, 0, 1, 1⟩ : Box ℝ)] [⟨0, 0, 1, 1⟩] [0])) ∧
    matchFn 1 [(⟨0, 0, 1, 1⟩ : Box ℝ)] [⟨0, 0, 1, 1⟩] 1 1 [0] [[], []] [[], []] 0 false =
      (([[], []] : List (List (Box ℝ))).set 0
        (encode (matchMatches [(⟨0, 0, 1, 1⟩ : Box ℝ)] [⟨0, 0, 1, 1⟩]) [⟨0, 0, 1, 1⟩] 1 1),
       ([[], []] : List (List ℕ)).set 0
        (matchConf 1 [(⟨0, 0, 1, 1⟩ : Box ℝ)] [⟨0, 0, 1, 1⟩] [0]), none) ∧
    ((1 : ℕ) ≠ 0 →
      (matchFn 1 [(⟨0, 0, 1, 1⟩ : Box ℝ)] [⟨0, 0, 1, 1⟩] 1 1 [0] [[], []] [[], []] 0 false).1.getD 1 [] =
        ([[], []] : List (List (Box ℝ))).getD 1 [] ∧
      (matchFn 1 [(⟨0, 0, 1, 1⟩ : Box ℝ)] [⟨0, 0, 1, 1⟩] 1 1 [0] [[], []] [[], []] 0 false).2.1.getD 1 [] =
        ([[], []] : List (List ℕ)).getD 1 []) :=
  match_frame_effect 1 [⟨0, 0, 1, 1⟩] [⟨0, 0, 1, 1⟩] 1 1 [0] [[], []] [[], []] 0 1

/-! ### Concrete runs: counterexamples and witnesses

The arithmetic of `ℚ` in Batteries is `@[irreducible]`; within this
section it is made semireducible again so that concrete pipeline runs
evaluate by `decide` (the kernel ignores reducibility, so the proofs
are unaffected). -/

section ConcreteRuns

attribute [local semireducible] Rat.add Rat.mul Rat.inv Rat.sub

/-- C1 (counterexample): with two ground-truth boxes whose best prior is
the same single prior, the forced-coverage loop makes the later ground
truth win, and index `0` appears nowhere in the final `best_truth_idx`
even though there is at least one ground-truth box. -/
theorem match_coverage_counterexample :
    1 ≤ ([⟨0, 0, 1, 1⟩, ⟨0, 0, 1/2, 1/2⟩] : List (Box ℚ)).length ∧
    0 < ([⟨0, 0, 1, 1⟩, ⟨0, 0, 1/2, 1/2⟩] : List (Box ℚ)).length ∧
    0 ∉ matchBTI ([⟨0, 0, 1, 1⟩, ⟨0, 0, 1/2, 1/2⟩] : List (Box ℚ)) [⟨1/2, 1/2, 1, 1⟩] := by
  decide

/-- Witness for `match_coverage_amended`: a concrete run (one ground
truth, one prior) in which index `0` is covered. -/
theorem match_coverage_amended_witness :
    0 ∈ matchBTI ([⟨0, 0, 1, 1⟩] : List (Box ℚ)) [⟨1/2, 1/2, 1, 1⟩] :=
  match_coverage_amended [⟨0, 0, 1, 1⟩] [⟨1/2, 1/2, 1, 1⟩] 0 (by decide) (by decide)
    (by decide)

/-- Witness for `match_conf_suppression`: a concrete run with label `3`
and overlap `1 ≥ 1/2`, so the confidence target is `3 + 1 = 4`. -/
theorem match_conf_suppression_witness :
    ((matchConf (1/2 : ℚ) [⟨0, 0, 1, 1⟩] [⟨1/2, 1/2, 1, 1⟩] [3]).getD 0 0 =
      (if (bestTruthOverlap ([⟨0, 0, 1, 1⟩] : List (Box ℚ)) [⟨1/2, 1/2, 1, 1⟩]).getD 0 0 < (1/2 : ℚ)
       then 0
       else [3].getD ((matchBTI ([⟨0, 0, 1, 1⟩] : List (Box ℚ)) [⟨1/2, 1/2, 1, 1⟩]).getD 0 0) 0 + 1)) ∧
    ((matchConf (1/2 : ℚ) [⟨0, 0, 1, 1⟩] [⟨1/2, 1/2, 1, 1⟩] [3]).getD 0 0 = 0 ↔
      (bestTruthOverlap ([⟨0, 0, 1, 1⟩] : List (Box ℚ)) [⟨1/2, 1/2, 1, 1⟩]).getD 0 0 < (1/2 : ℚ)) :=
  match_conf_suppression (1/2) [⟨0, 0, 1, 1⟩] [⟨1/2, 1/2, 1, 1⟩] [3] 0 (by decide)

/-- C2 (counterexample): for the degenerate pair of zero-area boxes
`(0,0,0,0)`, the union is `0` and the IEEE-modelled `jaccard` division
produces `none` (a `NaN`), not the numeric value `0` the claim
requires. -/
theorem jaccard_zero_union_counterexample :
    jaccardChecked (⟨0, 0, 0, 0⟩ : Box ℚ) ⟨0, 0, 0, 0⟩ = none ∧
    jaccardChecked (⟨0, 0, 0, 0⟩ : Box ℚ) ⟨0, 0, 0, 0⟩ ≠ some 0 := by decide

/-- Witness for `jaccard_zero_union_nan` at the degenerate pair
`(0,0,0,0)`, `(0,0,0,0)`. -/
theorem jaccard_zero_union_nan_witness :
    area (⟨0, 0, 0, 0⟩ : Box ℚ) + area (⟨0, 0, 0, 0⟩ : Box ℚ) -
      intersect (⟨0, 0, 0, 0⟩ : Box ℚ) ⟨0, 0, 0, 0⟩ = 0 ∧
    jaccardChecked (⟨0, 0, 0, 0⟩ : Box ℚ) ⟨0, 0, 0, 0⟩ = none :=
  jaccard_zero_union_nan ⟨0, 0, 0, 0⟩ ⟨0, 0, 0, 0⟩ (by decide) (by decide) (by decide)
    (by decide) (by decide) (by decide)

/-- C4 (counterexample): on the empty candidate set, `nms` does not
return the empty kept set together with count `0` — it takes the early
`return keep` branch and returns no count at all. -/
theorem nms_empty_counterexample :
    nms ([] : List (Box ℚ)) [] (1/2) 200 ≠ Sum.inr ([], 0) := by decide

/-- Witness for `nms_topk_bound`: two disjoint boxes, both kept,
`top_k = 200`. -/
theorem nms_topk_bound_witness :
    2 ≤ 200 ∧
    (pySliceLast (argsortAsc ([9/10, 8/10] : List ℚ)) 200).length ≤ 200 ∧
    (0 < 2 → ([0, 1] : List ℕ).getD 0 0 ∈ pySliceLast (argsortAsc ([9/10, 8/10] : List ℚ)) 200) ∧
    (0 ∈ argsortAsc ([9/10, 8/10] : List ℚ) →
      0 ∉ pySliceLast (argsortAsc ([9/10, 8/10] : List ℚ)) 200 →
      1 ∈ pySliceLast (argsortAsc ([9/10, 8/10] : List ℚ)) 200 →
      ([9/10, 8/10] : List ℚ).getD 0 0 ≤ ([9/10, 8/10] : List ℚ).getD 1 0) :=
  nms_topk_bound [⟨0, 0, 1/4, 1/4⟩, ⟨1/2, 1/2, 1, 1⟩] [9/10, 8/10] (1/2) 200 0 0 1
    [0, 1] 2 (by decide) (by decide)

/-- Witness for `nms_kept_pairwise_iou`: the two kept disjoint boxes have
IoU `0 ≤ 1/2`. -/
theorem nms_kept_pairwise_iou_witness :
    jaccard (([⟨0, 0, 1/4, 1/4⟩, ⟨1/2, 1/2, 1, 1⟩] : List (Box ℚ)).getD
        (([0, 1] : List ℕ).getD 0 0) ⟨0, 0, 0, 0⟩)
      (([⟨0, 0, 1/4, 1/4⟩, ⟨1/2, 1/2, 1, 1⟩] : List (Box ℚ)).getD
        (([0, 1] : List ℕ).getD 1 0) ⟨0, 0, 0, 0⟩) ≤ (1/2 : ℚ) :=
  nms_kept_pairwise_iou [⟨0, 0, 1/4, 1/4⟩, ⟨1/2, 1/2, 1, 1⟩] [9/10, 8/10] (1/2) 200
    0 1 [0, 1] 2 (by decide) (by decide) (by decide)

/-- C8 (counterexample): one image, one foreground class, one detection
`(0,0,1,1)` with score `0.9 ≥ 0.1` and one ground-truth box
`(0,0,1/2,1/2)` of that class.  Their IoU is `1/4 ≤ 0.5`, so the positive
predictions are empty and `evaluate` scores the bucket `(0,0,0,0)`,
while applying `measure` to the class's predicted boxes themselves (as
the claim states) would give `(1/4, 1/4, 1)` with `F1 = 2/5`. -/
theorem evaluate_counterexample :
    evaluate [[[], [((9 : ℚ)/10, ⟨0, 0, 1, 1⟩)]]] [[(⟨0, 0, 1/2, 1/2⟩, 0)]] (1/10) 1 1 =
      (0, 0, 0, 0) ∧
    claimedEvaluate [[[], [((9 : ℚ)/10, ⟨0, 0, 1, 1⟩)]]] [[(⟨0, 0, 1/2, 1/2⟩, 0)]] (1/10) 1 1 =
      (1/4, 1/4, 1, 2/5) ∧
    evaluate [[[], [((9 : ℚ)/10, ⟨0, 0, 1, 1⟩)]]] [[(⟨0, 0, 1/2, 1/2⟩, 0)]] (1/10) 1 1 ≠
      claimedEvaluate [[[], [((9 : ℚ)/10, ⟨0, 0, 1, 1⟩)]]] [[(⟨0, 0, 1/2, 1/2⟩, 0)]] (1/10) 1 1 := by
  decide

end ConcreteRuns

end SSD
